import Mathlib

/-!
Verification development for the CacheDumper TCO texture-cache decoder
(`src/main.cpp`).  The decode pipeline is embedded shallowly: buffers are
lists of byte values, machine integers are `Nat` with explicit reductions
mod powers of two, and the single-precision float arithmetic used by the
per-layout unpack loops is modelled exactly by round-to-nearest-even on
rationals with a 24-bit significand (all values arising in this program
lie well inside the binary32 normal range, where that model coincides
with IEEE binary32).
-/

namespace CacheDumper

/-- One byte of a buffer: entry `i`, reduced mod 256 (the decoder overlays
structs on a byte buffer; entries are bytes). -/
def byteAt (data : List Nat) (i : Nat) : Nat := data.getD i 0 % 256

/-- Little-endian 16-bit word from two byte values, as read by
`*(uint16*)p`. -/
def leU16 (b0 b1 : Nat) : Nat := b0 % 256 + 256 * (b1 % 256)

/-- Little-endian 32-bit word from four byte values, as read by
`*(uint32*)p`. -/
def leU32 (b0 b1 b2 b3 : Nat) : Nat :=
  b0 % 256 + 256 * (b1 % 256) + 65536 * (b2 % 256) + 16777216 * (b3 % 256)

/-- Little-endian 32-bit read at byte offset `i` of a buffer. -/
def readU32 (data : List Nat) (i : Nat) : Nat :=
  leU32 (byteAt data i) (byteAt data (i+1)) (byteAt data (i+2)) (byteAt data (i+3))

/-! ## Exact binary32 arithmetic

The unpack branches compute expressions such as
`uint8((float(v) / UINT16_MAX) * UINT8_MAX)`.  We model each
single-precision value by the exact rational it denotes and each float
operation by the correctly rounded result: round to nearest, ties to
even, 24-bit significand.  The computation is kept on `Nat` so that the
kernel can evaluate it. -/

/-- Fuel-driven floor base-2 logarithm (structural recursion so that the
kernel can reduce it). -/
def log2fuel : Nat → Nat → Nat
  | 0, _ => 0
  | f+1, n => if 2 ≤ n then log2fuel f (n / 2) + 1 else 0

/-- Floor base-2 logarithm of a positive natural. -/
def nlog2 (n : Nat) : Nat := log2fuel n n

/-- Round the fraction `p / q` (with `q ≠ 0`) to the nearest natural,
ties to even. -/
def rheN (p q : Nat) : Nat :=
  if 2 * (p % q) < q then p / q
  else if q < 2 * (p % q) then p / q + 1
  else if (p / q) % 2 = 0 then p / q else p / q + 1

/-- Binade exponent of `n / d` for `n, d ≥ 1`: the unique `e : ℤ` with
`2 ^ e ≤ n / d < 2 ^ (e + 1)` (see `bexp_le` and `lt_bexp_succ`). -/
def bexp (n d : Nat) : Int :=
  if nlog2 d ≤ nlog2 n then
    (if d * 2 ^ (nlog2 n - nlog2 d) ≤ n then ((nlog2 n - nlog2 d : Nat) : Int)
     else ((nlog2 n - nlog2 d : Nat) : Int) - 1)
  else
    (if d ≤ n * 2 ^ (nlog2 d - nlog2 n) then -((nlog2 d - nlog2 n : Nat) : Int)
     else -((nlog2 d - nlog2 n : Nat) : Int) - 1)

/-- Correctly rounded binary32 value of the positive fraction `n / d`:
scale into the binade `[2^23, 2^24)`, round to the nearest integer
(ties to even), and scale back. -/
def rndPos (n d : Nat) : ℚ :=
  if bexp n d ≤ 23 then
    (rheN (n * 2 ^ (23 - bexp n d).toNat) d : ℚ) / ((2 ^ (23 - bexp n d).toNat : Nat) : ℚ)
  else
    ((rheN n (d * 2 ^ (bexp n d - 23).toNat) * 2 ^ (bexp n d - 23).toNat : Nat) : ℚ)

/-- Correctly rounded binary32 value of a rational (round to nearest,
ties to even, unbounded exponent: exact for the normal range in which
this program computes).  Non-positive arguments only arise here as the
exact value 0. -/
def rnd (x : ℚ) : ℚ := if x ≤ 0 then 0 else rndPos x.num.toNat x.den

/-- Conversion of a machine integer to `float`. -/
def fofNat (n : Nat) : ℚ := rnd n

/-- `float` division. -/
def fdiv (a b : ℚ) : ℚ := rnd (a / b)

/-- `float` multiplication. -/
def fmul (a b : ℚ) : ℚ := rnd (a * b)

/-- The C cast `uint8(x)` applied to a float value in `[0, 256)`:
truncation toward zero. -/
def toByte (x : ℚ) : Nat := x.num.toNat / x.den

/-- `uint8((float(v) / UINT16_MAX) * UINT8_MAX)` from the RG16 / R16 /
R32G8 branches of `ProcessOneFile`. -/
def scale16 (v : Nat) : Nat := toByte (fmul (fdiv (fofNat v) (fofNat 65535)) (fofNat 255))

/-- `uint8((float(v) / UINT_MAX) * UINT8_MAX)` from the R32 branch. -/
def scale32 (v : Nat) : Nat := toByte (fmul (fdiv (fofNat v) (fofNat 4294967295)) (fofNat 255))

/-- `uint8((float(red) / 0xFFFFFF00) * UINT8_MAX)` from the R24G8 branch. -/
def scaleR24 (red : Nat) : Nat := toByte (fmul (fdiv (fofNat red) (fofNat 4294967040)) (fofNat 255))

/-! ### Basic facts about the rounding backbone -/

theorem log2fuel_spec : ∀ f n, 1 ≤ n → n ≤ f →
    2 ^ log2fuel f n ≤ n ∧ n < 2 ^ (log2fuel f n + 1) := by
  intro f
  induction f with
  | zero => intro n h1 h2; omega
  | succ f ih =>
    intro n h1 h2
    by_cases h : 2 ≤ n
    · have hrec := ih (n / 2) (by omega) (by omega)
      simp only [log2fuel, if_pos h]
      constructor
      · calc 2 ^ (log2fuel f (n / 2) + 1) = 2 * 2 ^ log2fuel f (n / 2) := by ring
        _ ≤ 2 * (n / 2) := by omega
        _ ≤ n := by omega
      · have : n < 2 * (n / 2) + 2 := by omega
        calc n < 2 * (n / 2) + 2 := this
        _ ≤ 2 * 2 ^ (log2fuel f (n / 2) + 1) := by omega
        _ = 2 ^ (log2fuel f (n / 2) + 1 + 1) := by ring
    · have hn : n = 1 := by omega
      subst hn
      simp [log2fuel, h]

theorem nlog2_spec (n : Nat) (h1 : 1 ≤ n) :
    2 ^ nlog2 n ≤ n ∧ n < 2 ^ (nlog2 n + 1) :=
  log2fuel_spec n n h1 (Nat.le_refl n)

theorem rheN_err (p q : Nat) (hq : 1 ≤ q) :
    |(rheN p q : ℚ) - (p : ℚ) / q| ≤ 1 / 2 := by
  have hq0 : (0 : ℚ) < q := by exact_mod_cast hq
  have hPQ : (p : ℚ) = ((p / q : Nat) : ℚ) * q + ((p % q : Nat) : ℚ) := by
    have h := Nat.div_add_mod p q
    have : ((q * (p / q) + p % q : Nat) : ℚ) = ((p / q : Nat) : ℚ) * q + ((p % q : Nat) : ℚ) := by
      push_cast
      ring
    rw [← this, h]
  have hsplit : (p : ℚ) / q = ((p / q : Nat) : ℚ) + ((p % q : Nat) : ℚ) / q := by
    rw [hPQ, add_div, mul_div_cancel_right₀ _ (ne_of_gt hq0)]
  unfold rheN
  split
  · next hlt =>
    have hltQ : 2 * ((p % q : Nat) : ℚ) < q := by exact_mod_cast hlt
    have hB : ((p % q : Nat) : ℚ) / q < 1 / 2 := by
      rw [div_lt_div_iff₀ hq0 (by norm_num : (0:ℚ) < 2)]
      linarith
    have hB0 : (0 : ℚ) ≤ ((p % q : Nat) : ℚ) / q := by positivity
    rw [hsplit, abs_le]
    constructor <;> linarith
  · next hge =>
    have hgeQ : (q : ℚ) ≤ 2 * ((p % q : Nat) : ℚ) := by
      have := Nat.le_of_not_lt hge
      exact_mod_cast this
    have hmod : (p % q : Nat) < q := Nat.mod_lt _ hq
    have hB1 : ((p % q : Nat) : ℚ) / q < 1 := by
      rw [div_lt_one hq0]; exact_mod_cast hmod
    have hBhalf : 1 / 2 ≤ ((p % q : Nat) : ℚ) / q := by
      rw [div_le_div_iff₀ (by norm_num : (0:ℚ) < 2) hq0]
      linarith
    have key : ∀ m : Nat, m = p / q + 1 →
        |(m : ℚ) - (p : ℚ) / q| ≤ 1 / 2 := by
      intro m hm
      subst hm
      rw [hsplit, abs_le]
      push_cast
      constructor <;> linarith
    split
    · next hgt =>
      exact key _ rfl
    · next hngt =>
      have hleQ : 2 * ((p % q : Nat) : ℚ) ≤ q := by
        have := Nat.le_of_not_lt hngt
        exact_mod_cast this
      have hBle : ((p % q : Nat) : ℚ) / q ≤ 1 / 2 := by
        rw [div_le_div_iff₀ hq0 (by norm_num : (0:ℚ) < 2)]
        linarith
      split
      · rw [hsplit, abs_le]
        constructor <;> linarith
      · exact key _ rfl

theorem zpow_as_div (u v : Nat) : (2:ℚ) ^ ((u:ℤ) - v) = ((2^u : Nat):ℚ) / ((2^v : Nat):ℚ) := by
  rw [zpow_sub₀ (by norm_num : (2:ℚ) ≠ 0), zpow_natCast, zpow_natCast]
  push_cast
  ring

theorem natdiv_le_natdiv (A B n d : Nat) (hB : 0 < B) (hd : 0 < d)
    (h : A * d ≤ n * B) : ((A:ℚ)/B) ≤ ((n:ℚ)/d) := by
  rw [div_le_div_iff₀ (by exact_mod_cast hB) (by exact_mod_cast hd)]
  exact_mod_cast h

theorem natdiv_lt_natdiv (A B n d : Nat) (hB : 0 < B) (hd : 0 < d)
    (h : n * B < A * d) : ((n:ℚ)/d) < ((A:ℚ)/B) := by
  rw [div_lt_div_iff₀ (by exact_mod_cast hd) (by exact_mod_cast hB)]
  exact_mod_cast h

theorem bexp_spec (n d : Nat) (hn : 1 ≤ n) (hd : 1 ≤ d) :
    (2:ℚ) ^ bexp n d ≤ (n:ℚ) / d ∧ (n:ℚ) / d < 2 ^ (bexp n d + 1) := by
  obtain ⟨hnl, hnu⟩ := nlog2_spec n hn
  obtain ⟨hdl, hdu⟩ := nlog2_spec d hd
  set a := nlog2 n with ha
  set b := nlog2 d with hb
  unfold bexp
  rw [← ha, ← hb]
  by_cases hab : b ≤ a
  · rw [if_pos hab]
    by_cases htest : d * 2 ^ (a - b) ≤ n
    · rw [if_pos htest]
      constructor
      · rw [show ((a - b : Nat) : ℤ) = ((a - b : Nat) : ℤ) - (0:Nat) by simp, zpow_as_div]
        exact natdiv_le_natdiv _ _ _ _ (by norm_num) (by omega)
          (by simpa [Nat.mul_comm] using htest)
      · rw [show ((a - b : Nat) : ℤ) + 1 = (((a - b) + 1 : Nat) : ℤ) - (0:Nat) by push_cast; ring,
          zpow_as_div]
        refine natdiv_lt_natdiv _ _ _ _ (by norm_num) (by omega) ?_
        have h1 : n * 1 < 2 ^ (a + 1) := by omega
        have h2 : (2:Nat) ^ (a + 1) = 2 ^ (a - b + 1) * 2 ^ b := by
          rw [← pow_add]
          congr 1
          omega
        have h3 : (2:Nat) ^ (a - b + 1) * 2 ^ b ≤ 2 ^ (a - b + 1) * d := by
          exact Nat.mul_le_mul_left _ hdl
        omega
    · rw [if_neg htest]
      constructor
      · rw [show ((a - b : Nat) : ℤ) - 1 = ((a - b : Nat) : ℤ) - (1:Nat) by norm_num,
          zpow_as_div]
        refine natdiv_le_natdiv _ _ _ _ (by norm_num) (by omega) ?_
        have h2 : (2:Nat) ^ (a - b) * d ≤ 2 ^ (a - b) * (2 ^ (b + 1) - 1) := by
          refine Nat.mul_le_mul_left _ ?_
          omega
        have h3 : (2:Nat) ^ (a - b) * 2 ^ (b + 1) = 2 ^ (a + 1) := by
          rw [← pow_add]
          congr 1
          omega
        have h4 : (2:Nat) ^ (a + 1) = 2 * 2 ^ a := by ring
        have h5 : (2:Nat) ^ (a - b) ≤ 2 ^ a := Nat.pow_le_pow_right (by norm_num) (by omega)
        nlinarith [hnl]
      · rw [show ((a - b : Nat) : ℤ) - 1 + 1 = ((a - b : Nat) : ℤ) - (0:Nat) by push_cast; ring,
          zpow_as_div]
        refine natdiv_lt_natdiv _ _ _ _ (by norm_num) (by omega) ?_
        simpa [Nat.mul_comm] using Nat.lt_of_not_le htest
  · rw [if_neg hab]
    by_cases htest : d ≤ n * 2 ^ (b - a)
    · rw [if_pos htest]
      constructor
      · rw [show -((b - a : Nat) : ℤ) = ((0:Nat) : ℤ) - (b - a : Nat) by push_cast; ring,
          zpow_as_div]
        refine natdiv_le_natdiv _ _ _ _ (by positivity) (by omega) ?_
        simpa using htest
      · rw [show -((b - a : Nat) : ℤ) + 1 = ((1:Nat) : ℤ) - (b - a : Nat) by push_cast; ring,
          zpow_as_div]
        refine natdiv_lt_natdiv _ _ _ _ (by positivity) (by omega) ?_
        have h2 : n * 2 ^ (b - a) < 2 ^ (a + 1) * 2 ^ (b - a) := by
          exact (Nat.mul_lt_mul_right (show 0 < 2 ^ (b - a) by positivity)).mpr hnu
        have h3 : (2:Nat) ^ (a + 1) * 2 ^ (b - a) = 2 ^ (b + 1) := by
          rw [← pow_add]
          congr 1
          omega
        have h4 : (2:Nat) ^ (b + 1) = 2 ^ 1 * 2 ^ b := by
          rw [← pow_add]
          congr 1
          omega
        have h5 : (2:Nat) ^ 1 * 2 ^ b ≤ 2 ^ 1 * d := Nat.mul_le_mul_left _ hdl
        omega
    · rw [if_neg htest]
      constructor
      · rw [show -((b - a : Nat) : ℤ) - 1 = ((0:Nat) : ℤ) - ((b - a) + 1 : Nat) by push_cast; ring,
          zpow_as_div]
        refine natdiv_le_natdiv _ _ _ _ (by positivity) (by omega) ?_
        have h2 : d * 1 ≤ 2 ^ (b + 1) - 1 := by omega
        have h3 : (2:Nat) ^ (b + 1) = 2 ^ a * 2 ^ ((b - a) + 1) := by
          rw [← pow_add]
          congr 1
          omega
        have h4 : (2:Nat) ^ a * 2 ^ ((b - a) + 1) ≤ n * 2 ^ ((b - a) + 1) := by
          exact Nat.mul_le_mul_right _ hnl
        omega
      · rw [show -((b - a : Nat) : ℤ) - 1 + 1 = ((0:Nat) : ℤ) - (b - a : Nat) by push_cast; ring,
          zpow_as_div]
        refine natdiv_lt_natdiv _ _ _ _ (by positivity) (by omega) ?_
        simpa using Nat.lt_of_not_le htest

theorem rndPos_err (n d : Nat) (_hn : 1 ≤ n) (hd : 1 ≤ d) :
    |rndPos n d - (n:ℚ)/d| ≤ 2 ^ (bexp n d - 24) := by
  unfold rndPos
  set e := bexp n d with he
  split
  · next hle =>
    set s := (23 - e).toNat with hs
    have hsz : (s:ℤ) = 23 - e := by
      rw [hs]
      omega
    set P := n * 2 ^ s with hP
    have hC : (0:ℚ) < ((2^s : Nat):ℚ) := by positivity
    have hval : (n:ℚ)/d = (((P : Nat):ℚ)/d)/((2^s : Nat):ℚ) := by
      rw [hP]
      push_cast
      have hd0 : (d:ℚ) ≠ 0 := by positivity
      have h2 : ((2:ℚ)^s) ≠ 0 := by positivity
      field_simp
      ring
    have hβ : (2:ℚ)^(e - 24) = (1/2)/((2^s : Nat):ℚ) := by
      rw [show e - 24 = ((0:Nat):ℤ) - ((s+1 : Nat):ℤ) by push_cast; omega, zpow_as_div]
      push_cast
      rw [pow_succ]
      ring
    rw [hval, div_sub_div_same, abs_div, abs_of_pos hC, hβ]
    gcongr
    exact rheN_err P d hd
  · next hgt =>
    set u := (e - 23).toNat with hu
    have huz : (u:ℤ) = e - 23 := by
      rw [hu]
      omega
    set D := d * 2 ^ u with hD
    have hD1 : 1 ≤ D := by
      rw [hD]
      exact Nat.mul_pos hd (pow_pos (by norm_num) u)
    have hC : (0:ℚ) < ((2^u : Nat):ℚ) := by positivity
    have hval : (n:ℚ)/d = ((n:ℚ)/D) * ((2^u : Nat):ℚ) := by
      rw [hD]
      push_cast
      rw [div_mul_eq_mul_div, mul_comm (d:ℚ), ← div_div]
      rw [mul_div_assoc, div_self (by positivity : ((2:ℚ)^u) ≠ 0), mul_one]
    have hβ : (2:ℚ)^(e - 24) = (1/2) * ((2^u : Nat):ℚ) := by
      rw [show e - 24 = ((u:Nat):ℤ) - ((1 : Nat):ℤ) by push_cast; omega, zpow_as_div]
      push_cast
      ring
    have hcast : ((rheN n D * 2 ^ u : Nat):ℚ) = ((rheN n D : Nat):ℚ) * ((2^u : Nat):ℚ) := by
      push_cast
      ring
    rw [hcast, hval, ← sub_mul, abs_mul, abs_of_pos hC, hβ]
    gcongr
    exact rheN_err n D hD1

theorem rnd_pos_eq (x : ℚ) (hx : 0 < x) : rnd x = rndPos x.num.toNat x.den := by
  rw [rnd, if_neg (not_le.mpr hx)]

theorem num_den_pos (x : ℚ) (hx : 0 < x) :
    1 ≤ x.num.toNat ∧ 1 ≤ x.den ∧ (x.num.toNat : ℚ) / (x.den : ℚ) = x := by
  have h0 : (0:ℤ) < x.num := Rat.num_pos.mpr hx
  refine ⟨by omega, x.pos, ?_⟩
  have hcast : ((x.num.toNat : Nat) : ℚ) = ((x.num : ℤ) : ℚ) := by
    exact_mod_cast congrArg (Int.cast : ℤ → ℚ) (Int.toNat_of_nonneg (le_of_lt h0))
  rw [hcast, Rat.num_div_den]

theorem rnd_bounds (x : ℚ) (hx : 0 < x) :
    x * (16777215/16777216) ≤ rnd x ∧ rnd x ≤ x * (16777217/16777216) := by
  obtain ⟨hn, hd, hnd⟩ := num_den_pos x hx
  set n := x.num.toNat
  set d := x.den
  have herr := rndPos_err n d hn hd
  have hbr := bexp_spec n d hn hd
  rw [hnd] at herr hbr
  have hbound : (2:ℚ) ^ (bexp n d - 24) ≤ x * (1/16777216) := by
    have h24 : ((2:ℚ) ^ (24:ℤ)) = 16777216 := by norm_num
    rw [zpow_sub₀ (by norm_num : (2:ℚ) ≠ 0), h24]
    calc (2:ℚ) ^ bexp n d / 16777216 ≤ x / 16777216 := by gcongr; exact hbr.1
    _ = x * (1/16777216) := by ring
  rw [rnd_pos_eq x hx]
  rw [abs_le] at herr
  constructor <;> nlinarith [herr.1, herr.2]

theorem rnd_nonneg (x : ℚ) : 0 ≤ rnd x := by
  rw [rnd]
  split
  · exact le_refl 0
  · rw [rndPos]
    split
    · positivity
    · positivity

theorem rheN_one (p : Nat) : rheN p 1 = p := by
  simp [rheN, Nat.mod_one]

theorem rheN_dvd (p q : Nat) (hq : 1 ≤ q) (hdvd : q ∣ p) : rheN p q = p / q := by
  obtain ⟨c, rfl⟩ := hdvd
  have hmod : q * c % q = 0 := Nat.mul_mod_right q c
  unfold rheN
  simp only [hmod]
  rw [if_pos (by omega : 2 * 0 < q)]

theorem fofNat_exact (m j : Nat) (hm : m < 2^24) :
    fofNat (m * 2^j) = ((m * 2^j : Nat) : ℚ) := by
  rcases Nat.eq_zero_or_pos m with hz | hm1
  · subst hz
    simp [fofNat, rnd]
  set N := m * 2^j with hN
  have hN1 : 1 ≤ N := Nat.mul_pos hm1 (pow_pos (by norm_num) j)
  have hQpos : (0:ℚ) < ((N:Nat):ℚ) := by exact_mod_cast hN1
  have hNub : N < 2^(24+j) := by
    rw [hN, pow_add]
    exact (Nat.mul_lt_mul_right (pow_pos (by norm_num) j)).mpr hm
  rw [fofNat, rnd_pos_eq _ hQpos]
  have hnum : ((N:Nat):ℚ).num.toNat = N := by
    simp [Rat.num_natCast]
  have hden : ((N:Nat):ℚ).den = 1 := by
    simp [Rat.den_natCast]
  rw [hnum, hden]
  have hbr := bexp_spec N 1 hN1 (by norm_num)
  set e := bexp N 1 with he
  have hiub : (((N:Nat)):ℚ) < (2:ℚ) ^ (((24+j : Nat)):ℤ) := by
    rw [zpow_natCast]
    exact_mod_cast hNub
  have heub : e < ((24 + j : Nat):ℤ) := by
    have h1 : (2:ℚ) ^ e ≤ ((N:Nat):ℚ) / 1 := hbr.1
    rw [div_one] at h1
    have h2 : (2:ℚ) ^ e < 2 ^ (((24+j : Nat)):ℤ) := lt_of_le_of_lt h1 hiub
    exact (zpow_lt_zpow_iff_right₀ (by norm_num : (1:ℚ) < 2)).mp h2
  rw [rndPos]
  split
  · next hle =>
    rw [rheN_one]
    push_cast
    rw [mul_div_assoc, div_self (by positivity : ((2:ℚ)^((23 - e).toNat)) ≠ 0), mul_one]
  · next hgt =>
    have hu : (bexp N 1 - 23).toNat ≤ j := by
      rw [← he]
      omega
    have hdvd : 2 ^ (bexp N 1 - 23).toNat ∣ N := by
      rw [hN]
      exact Dvd.dvd.mul_left (pow_dvd_pow 2 hu) m
    rw [one_mul, rheN_dvd _ _ (Nat.one_le_two_pow) hdvd, Nat.div_mul_cancel hdvd]

theorem fofNat_small (n : Nat) (hn : n < 2^24) : fofNat n = (n : ℚ) := by
  have := fofNat_exact n 0 hn
  simpa using this

theorem toByte_eq (y : ℚ) (k : Nat) (h1 : (k:ℚ) ≤ y) (h2 : y < k + 1) : toByte y = k := by
  have hy0 : (0:ℚ) ≤ y := le_trans (by positivity) h1
  have hnum0 : (0:ℤ) ≤ y.num := Rat.num_nonneg.mpr hy0
  have hcast : ((toByte y : Nat) : ℤ) = ⌊y⌋ := by
    rw [Rat.floor_def, toByte, Int.ofNat_ediv]
    congr 1
    exact Int.toNat_of_nonneg hnum0
  have hfl : ⌊y⌋ = (k:ℤ) := by
    rw [Int.floor_eq_iff]
    constructor
    · exact_mod_cast h1
    · exact_mod_cast h2
  omega

theorem rnd_chain (x : ℚ) (k : Nat) (hx : 0 < x)
    (hlo : (k:ℚ) * 281474976710656 ≤ 255 * x * 281474943156225)
    (hup : 255 * x * 281475010265089 < ((k:ℚ) + 1) * 281474976710656) :
    toByte (rnd (rnd x * 255)) = k := by
  obtain ⟨hq1, hq2⟩ := rnd_bounds x hx
  have hq0 : 0 < rnd x := lt_of_lt_of_le (by positivity) hq1
  have hm0 : 0 < rnd x * 255 := by positivity
  obtain ⟨hr1, hr2⟩ := rnd_bounds (rnd x * 255) hm0
  apply toByte_eq
  · have step : (k:ℚ) ≤ (rnd x * 255) * (16777215/16777216) := by nlinarith
    linarith [hr1, step]
  · have step : (rnd x * 255) * (16777217/16777216) < (k:ℚ) + 1 := by nlinarith
    linarith [hr2, step]

theorem scaleCore (c k t : Nat) (hc : 0 < c) (h1 : 1 ≤ c * k + t)
    (hlo : c * k * 33554431 ≤ t * 281474943156225)
    (hup : c * k * 33554433 + t * 281475010265089 < c * 281474976710656) :
    toByte (rnd (rnd (((c*k+t : Nat):ℚ) / ((255*c : Nat):ℚ)) * 255)) = k := by
  have hvq : (0:ℚ) < ((c*k+t : Nat):ℚ) := by exact_mod_cast h1
  have hcq : (0:ℚ) < ((c : Nat):ℚ) := by exact_mod_cast hc
  have hdq : (0:ℚ) < ((255*c : Nat):ℚ) := by
    push_cast
    positivity
  set x := ((c*k+t : Nat):ℚ) / ((255*c : Nat):ℚ) with hxdef
  have hx : 0 < x := div_pos hvq hdq
  have hL : (255:ℚ) * x = ((c*k+t : Nat):ℚ) / ((c : Nat):ℚ) := by
    rw [hxdef]
    push_cast
    field_simp
    ring
  apply rnd_chain _ _ hx
  · have h2 : ((c*k+t : Nat):ℚ) / ((c : Nat):ℚ) * 281474943156225 =
        (((c*k+t : Nat):ℚ) * 281474943156225) / ((c : Nat):ℚ) := by
      ring
    rw [show (255:ℚ) * x * 281474943156225 = (255 * x) * 281474943156225 by ring, hL, h2,
      le_div_iff₀ hcq]
    have hloQ : ((c:ℚ)) * k * 33554431 ≤ (t:ℚ) * 281474943156225 := by exact_mod_cast hlo
    push_cast
    nlinarith [hloQ]
  · have h2 : ((c*k+t : Nat):ℚ) / ((c : Nat):ℚ) * 281475010265089 =
        (((c*k+t : Nat):ℚ) * 281475010265089) / ((c : Nat):ℚ) := by
      ring
    rw [show (255:ℚ) * x * 281475010265089 = (255 * x) * 281475010265089 by ring, hL, h2,
      div_lt_iff₀ hcq]
    have hupQ : ((c:ℚ)) * k * 33554433 + (t:ℚ) * 281475010265089 <
        (c:ℚ) * 281474976710656 := by exact_mod_cast hup
    push_cast
    nlinarith [hupQ]

theorem scale16_mult257 : ∀ i : Fin 256, scale16 (257 * i.val) = i.val := by decide!

theorem scaleR24_t0 : ∀ i : Fin 256, scaleR24 (256 * (65793 * i.val)) = i.val := by decide!

theorem scaleR24_t1 : ∀ i : Fin 255, scaleR24 (256 * (65793 * i.val + 1)) = i.val := by decide!

theorem scaleR24_t65792 : ∀ i : Fin 255, scaleR24 (256 * (65793 * i.val + 65792)) = i.val := by
  decide!

/-- The RG16 / R16 / R32G8 red rescale agrees with exact arithmetic:
`uint8((float(v) / 65535) * 255)` equals `⌊v * 255 / 65535⌋` for every
16-bit value. -/
theorem scale16_eq (v : Nat) (hv : v ≤ 65535) : scale16 v = v * 255 / 65535 := by
  rcases Nat.eq_zero_or_pos v with hz | hpos
  · subst hz
    decide!
  have hv24 : v < 2^24 := by omega
  have hrw : scale16 v = toByte (rnd (rnd ((v:ℚ) / (65535:ℚ)) * (255:ℚ))) := by
    rw [scale16, fofNat_small v hv24, fofNat_small 65535 (by norm_num),
      fofNat_small 255 (by norm_num), fdiv, fmul]
    norm_cast
  set k := v / 257 with hk
  set t := v % 257 with ht
  have hvkt : 257 * k + t = v := Nat.div_add_mod v 257
  have htlt : t < 257 := Nat.mod_lt _ (by norm_num)
  rcases Nat.eq_zero_or_pos t with htz | htpos
  · have hveq : v = 257 * k := by omega
    have hk255 : k < 256 := by omega
    have hbatch : scale16 (257 * k) = k := scale16_mult257 ⟨k, hk255⟩
    calc scale16 v = scale16 (257 * k) := by rw [← hveq]
    _ = k := hbatch
    _ = v * 255 / 65535 := by omega
  · have hk254 : k ≤ 254 := by omega
    have hmain := scaleCore 257 k t (by norm_num) (by omega) (by omega) (by omega)
    have hx1 : ((257*k+t : Nat):ℚ) = (v:ℚ) := by exact_mod_cast congrArg (Nat.cast : Nat → ℚ) hvkt
    have hx2 : ((255*257 : Nat):ℚ) = (65535:ℚ) := by norm_num
    rw [hx1, hx2] at hmain
    calc scale16 v = toByte (rnd (rnd ((v:ℚ) / (65535:ℚ)) * (255:ℚ))) := hrw
    _ = k := hmain
    _ = v * 255 / 65535 := by omega

/-- The R24G8 red rescale agrees with exact arithmetic on every possible
masked value `256 * m`. -/
theorem scaleR24_eq (m : Nat) (hm : m ≤ 16777215) : scaleR24 (256 * m) = m / 65793 := by
  rcases Nat.eq_zero_or_pos m with hz | hpos
  · subst hz
    decide!
  have hm24 : m < 2^24 := by omega
  have hfo : fofNat (256 * m) = ((256 * m : Nat):ℚ) := by
    have := fofNat_exact m 8 hm24
    rw [show m * 2^8 = 256 * m by ring] at this
    exact this
  have hfo2 : fofNat 4294967040 = (4294967040:ℚ) := by
    have := fofNat_exact 16777215 8 (by norm_num)
    norm_num at this ⊢
    exact this
  have hxeq : ((256*m : Nat):ℚ) / (4294967040:ℚ) = (m:ℚ) / (16777215:ℚ) := by
    rw [div_eq_div_iff (by positivity) (by positivity)]
    push_cast
    ring
  have hrw : scaleR24 (256 * m) =
      toByte (rnd (rnd ((m:ℚ) / (16777215:ℚ)) * (255:ℚ))) := by
    rw [scaleR24, hfo, hfo2, fofNat_small 255 (by norm_num), fdiv, fmul, hxeq]
    norm_cast
  set k := m / 65793 with hk
  set t := m % 65793 with ht
  have hvkt : 65793 * k + t = m := Nat.div_add_mod m 65793
  have htlt : t < 65793 := Nat.mod_lt _ (by norm_num)
  rcases Nat.eq_zero_or_pos t with htz | htpos
  · have hmeq : m = 65793 * k := by omega
    have hk255 : k < 256 := by omega
    have hbatch : scaleR24 (256 * (65793 * k)) = k := scaleR24_t0 ⟨k, hk255⟩
    calc scaleR24 (256 * m) = scaleR24 (256 * (65793 * k)) := by rw [← hmeq]
    _ = k := hbatch
    _ = m / 65793 := by omega
  rcases Nat.lt_or_ge t 2 with ht1 | ht2
  · have hmeq : m = 65793 * k + 1 := by omega
    have hk254 : k < 255 := by omega
    have hbatch : scaleR24 (256 * (65793 * k + 1)) = k := scaleR24_t1 ⟨k, hk254⟩
    calc scaleR24 (256 * m) = scaleR24 (256 * (65793 * k + 1)) := by rw [← hmeq]
    _ = k := hbatch
    _ = m / 65793 := by omega
  rcases Nat.lt_or_ge t 65792 with ht65791 | ht65792
  · have hk254 : k ≤ 254 := by omega
    have hmain := scaleCore 65793 k t (by norm_num) (by omega) (by omega) (by omega)
    have hx1 : ((65793*k+t : Nat):ℚ) = (m:ℚ) := by
      exact_mod_cast congrArg (Nat.cast : Nat → ℚ) hvkt
    have hx2 : ((255*65793 : Nat):ℚ) = (16777215:ℚ) := by norm_num
    rw [hx1, hx2] at hmain
    calc scaleR24 (256 * m) = toByte (rnd (rnd ((m:ℚ) / (16777215:ℚ)) * (255:ℚ))) := hrw
    _ = k := hmain
    _ = m / 65793 := by omega
  · have hmeq : m = 65793 * k + 65792 := by omega
    have hk254 : k < 255 := by omega
    have hbatch : scaleR24 (256 * (65793 * k + 65792)) = k := scaleR24_t65792 ⟨k, hk254⟩
    calc scaleR24 (256 * m) = scaleR24 (256 * (65793 * k + 65792)) := by rw [← hmeq]
    _ = k := hbatch
    _ = m / 65793 := by omega

/-- The R32 branch divides a 16-bit value by `float(UINT_MAX)`: the result
truncates to 0 for every possible input. -/
theorem scale32_zero (v : Nat) (hv : v ≤ 65535) : scale32 v = 0 := by
  rcases Nat.eq_zero_or_pos v with hz | hpos
  · subst hz
    decide!
  have hv24 : v < 2^24 := by omega
  have hfu : fofNat 4294967295 = (4294967296:ℚ) := by decide!
  have hrw : scale32 v = toByte (rnd (rnd ((v:ℚ) / (4294967296:ℚ)) * ((255 : Nat):ℚ))) := by
    rw [scale32, fofNat_small v hv24, fofNat_small 255 (by norm_num), hfu, fdiv, fmul]
  rw [hrw]
  have hx : (0:ℚ) < (v:ℚ) / 4294967296 := by positivity
  set x := (v:ℚ) / 4294967296 with hxdef
  obtain ⟨hq1, hq2⟩ := rnd_bounds x hx
  have hq0 : 0 < rnd x := lt_of_lt_of_le (by positivity) hq1
  have hm0 : 0 < rnd x * ((255:Nat):ℚ) := by
    push_cast
    positivity
  obtain ⟨hr1, hr2⟩ := rnd_bounds (rnd x * ((255:Nat):ℚ)) hm0
  apply toByte_eq
  · push_cast
    exact rnd_nonneg _
  · have hvb : (v:ℚ) ≤ 65535 := by exact_mod_cast hv
    have hxb : x ≤ 65535 / 4294967296 := by
      rw [hxdef]
      gcongr
    push_cast at hr2 hq2 ⊢
    nlinarith [hr2, hq2, hxb, hq0]

/-! ## The decode pipeline

Embedding of `ProcessOneFile` and `DecompressBC` (`src/main.cpp`).
External services (LZ4 decompression via `LZ4_decompress_safe`, the
DirectXTex block decoder, the image writer) are out of scope per the
spec and appear as function parameters. -/

/-- The 14 values of `enum class TCOLayout : int` in source order
(tags 0 through 13). -/
inductive TCOLayout where
  | bc1 | bc2 | bc3 | bc4 | bc5
  | notUsed
  | r11g11b10 | rgba8 | rg16
  | r16 | r32 | r32g8 | r24g8
  | r8
deriving DecidableEq, Repr

/-- Decode a layout tag value (the `layout` field read from the file) to
the enum constant; values 0 to 13 are the declared constants, anything
else is outside the enum (and falls into the `switch` default together
with `notUsed`). -/
def TCOLayout.ofTag : Nat → Option TCOLayout
  | 0 => some .bc1
  | 1 => some .bc2
  | 2 => some .bc3
  | 3 => some .bc4
  | 4 => some .bc5
  | 5 => some .notUsed
  | 6 => some .r11g11b10
  | 7 => some .rgba8
  | 8 => some .rg16
  | 9 => some .r16
  | 10 => some .r32
  | 11 => some .r32g8
  | 12 => some .r24g8
  | 13 => some .r8
  | _ => none

/-- `numChannels` as set by `DecompressBC`: 4 by default, 1 for BC4,
2 for BC5. -/
def bcChannels (L : TCOLayout) : Nat :=
  if L = .bc4 then 1 else if L = .bc5 then 2 else 4

/-- The masked red value of the R24G8 branch: `pix & 0xFFFFFF00`. -/
def r24g8Red (pix : Nat) : Nat := pix &&& 4294967040

/-- The green byte of the R24G8 branch: `(pix << 0x18) & 0xFF` computed
in 32-bit unsigned arithmetic. -/
def r24g8Green (pix : Nat) : Nat := ((pix <<< 24) % 4294967296) &&& 255

/-- The RG16 loop: two 16-bit words consumed (4 bytes) and two output
bytes produced per iteration.  Defined on payloads whose length is a
multiple of the stride; the source loop only terminates in that case
(its guard is pointer equality with the payload end, see
`loopTerminates`). -/
def unpackRG16 : List Nat → List Nat
  | b0 :: b1 :: b2 :: b3 :: rest =>
      scale16 (leU16 b0 b1) :: scale16 (leU16 b2 b3) :: unpackRG16 rest
  | _ => []

/-- The R16 loop: the cursor advances by two 16-bit words (4 bytes) per
iteration but only the first word of each pair is read. -/
def unpackR16 : List Nat → List Nat
  | b0 :: b1 :: _ :: _ :: rest => scale16 (leU16 b0 b1) :: unpackR16 rest
  | _ => []

/-- The R32 loop: same two-16-bit-word stride as R16, but the 16-bit
value is divided by `float(UINT_MAX)`. -/
def unpackR32 : List Nat → List Nat
  | b0 :: b1 :: _ :: _ :: rest => scale32 (leU16 b0 b1) :: unpackR32 rest
  | _ => []

/-- The R32G8 loop: 3-byte groups; red is the 16-bit word at offset 0
(rescaled), green is the byte at offset 2 (passthrough). -/
def unpackR32G8 : List Nat → List Nat
  | b0 :: b1 :: b2 :: rest => scale16 (leU16 b0 b1) :: (b2 % 256) :: unpackR32G8 rest
  | _ => []

/-- The R24G8 loop: the cursor advances by three 32-bit words (12 bytes)
per iteration; one 32-bit word is read per group. -/
def unpackR24G8 : List Nat → List Nat
  | b0 :: b1 :: b2 :: b3 :: _ :: _ :: _ :: _ :: _ :: _ :: _ :: _ :: rest =>
      scaleR24 (r24g8Red (leU32 b0 b1 b2 b3)) :: r24g8Green (leU32 b0 b1 b2 b3) ::
        unpackR24G8 rest
  | _ => []

/-- Model of writing a stream of produced bytes into a fresh allocation
of `size` bytes (`new uint8[size]` in the source): bytes beyond the
allocation are dropped (out-of-bounds writes, undefined behaviour in the
source), unwritten trailing bytes are uninitialized memory, modelled
as 0. -/
def fitBuffer (size : Nat) (written : List Nat) : List Nat :=
  written.take size ++ List.replicate (size - written.length) 0

theorem fitBuffer_length (size : Nat) (written : List Nat) :
    (fitBuffer size written).length = size := by
  rw [fitBuffer, List.length_append, List.length_take, List.length_replicate]
  omega

/-- Per-file error conditions, one per early return of `ProcessOneFile`
(the messages of the source in the same order):
`emptyRead`: `ReadFile` returned no data (read failures surface a
message box elsewhere, this file is skipped silently);
`incompleteFile`: "File is incomplete or malformed" (fewer than 24
bytes); `truncatedBase`: "Failed to read base header"; `unsupportedFlag`:
unsupported type flag; `truncatedComp`: "Failed to read compressed data
header"; `headerSizeMismatch`: dataHeaderSize mismatch; `truncatedTCO`:
"Failed to read TCO header"; `decompressionFailure`: LZ4 failure;
`unsupportedLayout`: `switch` default; `decodeFailure`: the BC path
logged a failure inside `DecompressBC` and produced no buffer. -/
inductive Err where
  | emptyRead
  | incompleteFile
  | truncatedBase
  | unsupportedFlag
  | truncatedComp
  | headerSizeMismatch
  | truncatedTCO
  | decompressionFailure
  | unsupportedLayout
  | decodeFailure
deriving DecidableEq, Repr

/-- The errors that report insufficient bytes for reading the fixed-size
headers. -/
def Err.isTruncation : Err → Bool
  | .incompleteFile | .truncatedBase | .truncatedComp | .truncatedTCO => true
  | _ => false

/-- The bounds check of the `Read<T>` helper: reading `size` bytes at
offset `pos` of a `total`-byte buffer succeeds only when
`buf + sizeof(T) < end`, i.e. strictly more than `size` bytes remain. -/
def readOK (pos total size : Nat) : Bool := pos + size < total

/-- The pixel data handed to the output stage (`stbi_write_tga`). -/
structure PixelOut where
  width : Nat
  height : Nat
  channels : Nat
  data : List Nat
  flipOnWrite : Bool
deriving DecidableEq, Repr

/-- Fields of the header overlay, little-endian at their fixed offsets. -/
def baseFlag (data : List Nat) : Nat := readU32 data 0

/-- `CompressedDataHeader.dataHeaderSize` (offset 12, after flag and the
8 opaque bytes). -/
def dataHeaderSize (data : List Nat) : Nat := readU32 data 12

/-- `CompressedDataHeader.compressedSize` (offset 16). -/
def compressedSize (data : List Nat) : Nat := readU32 data 16

/-- `CompressedDataHeader.decompressedSize` (offset 20). -/
def decompressedSize (data : List Nat) : Nat := readU32 data 20

/-- `TCOHeader.width` (offset 24 + 4). -/
def tcoWidth (data : List Nat) : Nat := readU32 data 28

/-- `TCOHeader.height` (offset 24 + 8). -/
def tcoHeight (data : List Nat) : Nat := readU32 data 32

/-- `TCOHeader.layout` (offset 24 + 12). -/
def tcoLayoutTag (data : List Nat) : Nat := readU32 data 36

/-- `TCOHeader.numMips` (offset 24 + 16). -/
def tcoNumMips (data : List Nat) : Nat := readU32 data 40

/-- `TCOHeader.flipV` (offset 24 + 20, one byte). -/
def tcoFlipV (data : List Nat) : Bool := byteAt data 44 ≠ 0

/-- A block decoder: given layout, width, height, mip count and the
decompressed payload, optionally returns decoded pixel bytes (the
DirectXTex service, external). -/
def BCDecoder : Type := TCOLayout → Nat → Nat → Nat → List Nat → Option (List Nat)

/-- An LZ4-style decompressor: compressed bytes, compressed size,
decompressed size; returns the bytes it wrote on success (external). -/
def LZ4 : Type := List Nat → Nat → Nat → Option (List Nat)

/-- `DecompressBC`: the channel count from the layout, a fresh buffer of
`w*h*channels` bytes filled from the external decoder's pixels (via
`memcpy` of at most that many bytes); a decoder failure leaves no
buffer. -/
def decompressBC (bc : BCDecoder) (w h mips : Nat) (L : TCOLayout) (payload : List Nat) :
    Except Err (Nat × List Nat) :=
  match bc L w h mips payload with
  | none => .error .decodeFailure
  | some px => .ok (bcChannels L, fitBuffer (w * h * bcChannels L) px)

/-- The `switch (tcoHeader.layout)` of `ProcessOneFile`: produces the
channel count and the byte buffer handed to the output stage.  BC
layouts go through `DecompressBC`; R11G11B10, RGBA8 and R8 alias the
decompressed payload unchanged; the remaining layouts allocate
`w*h*channels` bytes and run their unpack loop. -/
def dispatch (bc : BCDecoder) (w h mips : Nat) (L : TCOLayout) (payload : List Nat) :
    Except Err (Nat × List Nat) :=
  match L with
  | .bc1 | .bc2 | .bc3 | .bc4 | .bc5 => decompressBC bc w h mips L payload
  | .r11g11b10 => .ok (4, payload)
  | .rgba8 => .ok (4, payload)
  | .rg16 => .ok (2, fitBuffer (w * h * 2) (unpackRG16 payload))
  | .r16 => .ok (1, fitBuffer (w * h * 1) (unpackR16 payload))
  | .r32 => .ok (1, fitBuffer (w * h * 1) (unpackR32 payload))
  | .r32g8 => .ok (2, fitBuffer (w * h * 2) (unpackR32G8 payload))
  | .r24g8 => .ok (2, fitBuffer (w * h * 2) (unpackR24G8 payload))
  | .r8 => .ok (1, payload)
  | .notUsed => .error .unsupportedLayout

/-- Dispatch on the raw tag: tags outside the enum hit the `switch`
default just like `notUsed`. -/
def dispatchTag (bc : BCDecoder) (w h mips tag : Nat) (payload : List Nat) :
    Except Err (Nat × List Nat) :=
  match TCOLayout.ofTag tag with
  | none => .error .unsupportedLayout
  | some L => dispatch bc w h mips L payload

/-- `ProcessOneFile`, from the raw file bytes to the pixel buffer handed
to the image writer (or the per-file error).  Checks in source order:
empty read; the 24-byte minimum; `Read(BaseHeader)` (no advance); the
type flag; `Read(CompressedDataHeader)` (advance to 24);
`dataHeaderSize`; `Read(TCOHeader)` (advance to 48); LZ4 decompression
into a fresh buffer of `decompressedSize` bytes; the layout switch.
The written image is flipped vertically unless `flipV` is set. -/
def processFile (lz4 : LZ4) (bc : BCDecoder) (data : List Nat) : Except Err PixelOut :=
  if data.length = 0 then .error .emptyRead
  else if data.length < 24 then .error .incompleteFile
  else if readOK 0 data.length 4 = false then .error .truncatedBase
  else if baseFlag data ≠ 4 then .error .unsupportedFlag
  else if readOK 0 data.length 24 = false then .error .truncatedComp
  else if dataHeaderSize data ≠ 24 then .error .headerSizeMismatch
  else if readOK 24 data.length 24 = false then .error .truncatedTCO
  else
    match lz4 (data.drop 48) (compressedSize data) (decompressedSize data) with
    | none => .error .decompressionFailure
    | some res =>
      match dispatchTag bc (tcoWidth data) (tcoHeight data) (tcoNumMips data)
          (tcoLayoutTag data) (fitBuffer (decompressedSize data) res) with
      | .error e => .error e
      | .ok (c, buf) =>
        .ok { width := tcoWidth data, height := tcoHeight data, channels := c,
              data := buf, flipOnWrite := !(tcoFlipV data) }

/-- Worker threads process disjoint chunks of the file list, each file
start-to-finish with no cross-file state; observably the batch is the
per-file map. -/
def processBatch (lz4 : LZ4) (bc : BCDecoder) (files : List (List Nat)) :
    List (Except Err PixelOut) :=
  files.map (processFile lz4 bc)

/-! ### Loop cursor model for the non-block unpack loops

Each of the five unpack loops advances a cursor from the payload start
by a fixed byte stride and stops only when the cursor compares equal to
the payload end pointer (`pChannel != (uint16*)pDecDataEnd` and the
analogous guards). -/

/-- Byte stride of each unpack loop's cursor: RG16/R16/R32 advance a
`uint16*` by 2 (4 bytes), R32G8 advances a `uint8*` by 3, R24G8 advances
a `uint32*` by 3 (12 bytes). -/
def unpackStride : TCOLayout → Nat
  | .rg16 => 4
  | .r16 => 4
  | .r32 => 4
  | .r32g8 => 3
  | .r24g8 => 12
  | _ => 0

/-- The loop halts exactly when some number of stride steps lands the
cursor on the payload end. -/
def loopTerminates (stride size : Nat) : Prop :=
  ∃ n : Nat, (fun c => c + stride)^[n] 0 = size

theorem cursor_iterate (stride : Nat) : ∀ n, (fun c => c + stride)^[n] 0 = n * stride := by
  intro n
  induction n with
  | zero => simp
  | succ n ih =>
    rw [Function.iterate_succ_apply', ih]
    ring

/-! ## Helpers for the claim theorems -/

theorem leU16_le (b0 b1 : Nat) : leU16 b0 b1 ≤ 65535 := by
  unfold leU16
  omega

theorem unpackR32_length : ∀ payload : List Nat,
    (unpackR32 payload).length = (unpackR16 payload).length
  | [] => rfl
  | [_] => rfl
  | [_, _] => rfl
  | [_, _, _] => rfl
  | _ :: _ :: _ :: _ :: rest => by
      simp only [unpackR32, unpackR16, List.length_cons]
      rw [unpackR32_length rest]

/-- Modelled from the spec: the channel-count table of section 4.3 (the
reserved tag has no table entry; it is rejected before production). -/
def specChannels : TCOLayout → Nat
  | .bc1 | .bc2 | .bc3 | .r11g11b10 | .rgba8 => 4
  | .bc5 | .rg16 | .r32g8 | .r24g8 => 2
  | .bc4 | .r16 | .r32 | .r8 => 1
  | .notUsed => 0

/-- Decompressor model used in concrete runs: fills the destination
buffer with zero bytes. -/
def lz4Zeros : LZ4 := fun _ _ dsz => some (List.replicate dsz 0)

/-- Block decoder that always fails; concrete runs below never reach it. -/
def bcNone : BCDecoder := fun _ _ _ _ _ => none

/-- A 49-byte file: flag 4, dataHeaderSize 24, decompressedSize 2,
width 1, height 1, layout tag 7 (RGBA8), one trailing byte so the
TCOHeader read succeeds. -/
def fileRGBA8small : List Nat :=
  [4,0,0,0, 0,0,0,0,0,0,0,0, 24,0,0,0, 0,0,0,0, 2,0,0,0,
   0,0,0,0, 1,0,0,0, 1,0,0,0, 7,0,0,0, 0,0,0,0, 0,0,0,0, 0]

/-- A 24-byte file whose flag is 5. -/
def fileFlag5 : List Nat :=
  [5,0,0,0, 0,0,0,0,0,0,0,0, 0,0,0,0, 0,0,0,0, 0,0,0,0]

/-- A 4-byte file (exact fit for the BaseHeader read). -/
def file4bytes : List Nat := [4,0,0,0]

/-- A 24-byte file with flag 4 (exact fit for the CompressedDataHeader
read). -/
def file24flag4 : List Nat :=
  [4,0,0,0, 0,0,0,0,0,0,0,0, 24,0,0,0, 0,0,0,0, 0,0,0,0]

/-- A 48-byte file with flag 4 and dataHeaderSize 24 (exact fit for the
TCOHeader read). -/
def file48tco : List Nat :=
  [4,0,0,0, 0,0,0,0,0,0,0,0, 24,0,0,0, 0,0,0,0, 2,0,0,0,
   0,0,0,0, 1,0,0,0, 1,0,0,0, 7,0,0,0, 0,0,0,0, 0,0,0,0]

theorem decompressBC_ok (bc : BCDecoder) (w h mips : Nat) (L : TCOLayout)
    (payload : List Nat) (c : Nat) (buf : List Nat)
    (hd : decompressBC bc w h mips L payload = .ok (c, buf)) :
    c = bcChannels L ∧ buf.length = w * h * c := by
  rw [decompressBC] at hd
  cases hbc : bc L w h mips payload <;> rw [hbc] at hd
  · exact absurd hd (by simp)
  · next px =>
    have hinj : bcChannels L = c ∧ fitBuffer (w * h * bcChannels L) px = buf := by
      simpa using hd
    obtain ⟨h1, h2⟩ := hinj
    subst h1
    exact ⟨rfl, by rw [← h2, fitBuffer_length]⟩

/-! ## Claim theorems -/

/-- C10: each non-block decode loop's cursor advances by the layout's
stride (4, 4, 4, 3 and 12 bytes for RG16, R16, R32, R32G8, R24G8) and
the loop stops only when the cursor lands exactly on the payload end, so
it terminates precisely when the stride divides the payload size. -/
theorem claim_c10_loop_termination :
    (∀ (L : TCOLayout) (size : Nat),
      L ∈ [TCOLayout.rg16, TCOLayout.r16, TCOLayout.r32, TCOLayout.r32g8, TCOLayout.r24g8] →
      (loopTerminates (unpackStride L) size ↔ unpackStride L ∣ size))
    ∧ unpackStride .rg16 = 4 ∧ unpackStride .r16 = 4 ∧ unpackStride .r32 = 4
    ∧ unpackStride .r32g8 = 3 ∧ unpackStride .r24g8 = 12 := by
  refine ⟨?_, rfl, rfl, rfl, rfl, rfl⟩
  intro L size _
  constructor
  · rintro ⟨n, hn⟩
    rw [cursor_iterate] at hn
    exact ⟨n, by rw [← hn, Nat.mul_comm]⟩
  · rintro ⟨c, hc⟩
    refine ⟨c, ?_⟩
    rw [cursor_iterate, hc, Nat.mul_comm]

/-- Witness for C10 at the RG16 stride and payload size 8. -/
theorem claim_c10_witness :
    loopTerminates (unpackStride .rg16) 8 ↔ unpackStride .rg16 ∣ 8 :=
  claim_c10_loop_termination.1 .rg16 8 (by decide)

/-- C6: for the RGBA8, R8 and R11G11B10 tags the buffer handed to the
output stage is the decompressed payload itself, unchanged byte for
byte; in the pipeline the produced pixel data is the decompression
output of the file. -/
theorem claim_c6_passthrough :
    (∀ (bc : BCDecoder) (w h mips : Nat) (payload : List Nat),
      dispatch bc w h mips .rgba8 payload = .ok (4, payload)
      ∧ dispatch bc w h mips .r8 payload = .ok (1, payload)
      ∧ dispatch bc w h mips .r11g11b10 payload = .ok (4, payload))
    ∧ (∀ (lz4 : LZ4) (bc : BCDecoder) (data : List Nat) (out : PixelOut) (res : List Nat),
      processFile lz4 bc data = .ok out →
      lz4 (data.drop 48) (compressedSize data) (decompressedSize data) = some res →
      (tcoLayoutTag data = 6 ∨ tcoLayoutTag data = 7 ∨ tcoLayoutTag data = 13) →
      out.data = fitBuffer (decompressedSize data) res) := by
  constructor
  · intro bc w h mips payload
    exact ⟨rfl, rfl, rfl⟩
  · intro lz4 bc data out res hrun hres htag
    rw [processFile] at hrun
    split_ifs at hrun
    rw [hres] at hrun
    rcases htag with h6 | h7 | h13
    · simp only [h6, dispatchTag, TCOLayout.ofTag, dispatch] at hrun
      cases hrun
      rfl
    · simp only [h7, dispatchTag, TCOLayout.ofTag, dispatch] at hrun
      cases hrun
      rfl
    · simp only [h13, dispatchTag, TCOLayout.ofTag, dispatch] at hrun
      cases hrun
      rfl

/-- Witness for C6: the RGBA8 run on `fileRGBA8small` hands its 2-byte
decompressed payload to the output stage unchanged. -/
theorem claim_c6_witness :
    ({ width := 1, height := 1, channels := 4, data := [0, 0], flipOnWrite := true } :
      PixelOut).data = fitBuffer (decompressedSize fileRGBA8small) [0, 0] :=
  claim_c6_passthrough.2 lz4Zeros bcNone fileRGBA8small
    { width := 1, height := 1, channels := 4, data := [0, 0], flipOnWrite := true }
    [0, 0] rfl rfl (by decide)

/-- C7: the channel count of the produced pixel buffer is a function of
the layout tag alone and matches the table of spec section 4.3. -/
theorem claim_c7_channels :
    ∀ (bc : BCDecoder) (w h mips : Nat) (L : TCOLayout) (payload : List Nat)
      (c : Nat) (buf : List Nat),
      dispatch bc w h mips L payload = .ok (c, buf) → c = specChannels L := by
  intro bc w h mips L payload c buf hd
  cases L
  case notUsed => exact absurd hd (by simp [dispatch])
  all_goals try
    (simpa [bcChannels, specChannels] using
      (decompressBC_ok bc w h mips _ payload c buf hd).1)
  all_goals
    (simp only [dispatch, Except.ok.injEq, Prod.mk.injEq] at hd
     exact hd.1.symm)

/-- Witness for C7 at the RGBA8 layout on a 4-byte payload. -/
theorem claim_c7_witness : (4 : Nat) = specChannels .rgba8 :=
  claim_c7_channels bcNone 1 1 0 .rgba8 [0,0,0,0] 4 [0,0,0,0] rfl

/-- C9 (amended): the buffer handed to the output stage has exactly
`width * height * channels` bytes for the block-compressed and
word-unpacking layouts; for the passthrough layouts (RGBA8, R8,
R11G11B10) it is the decompressed payload itself, whose length is the
header's `decompressedSize`, not `width * height * channels`. -/
theorem claim_c9_buffer_length :
    (∀ (bc : BCDecoder) (w h mips : Nat) (L : TCOLayout) (payload : List Nat)
      (c : Nat) (buf : List Nat),
      dispatch bc w h mips L payload = .ok (c, buf) →
      buf.length =
        (if L = .r11g11b10 ∨ L = .rgba8 ∨ L = .r8 then payload.length else w * h * c))
    ∧ (∀ (size : Nat) (written : List Nat), (fitBuffer size written).length = size) := by
  constructor
  · intro bc w h mips L payload c buf hd
    cases L
    case notUsed => exact absurd hd (by simp [dispatch])
    all_goals try
      (simpa using (decompressBC_ok bc w h mips _ payload c buf hd).2)
    all_goals simp only [dispatch, Except.ok.injEq, Prod.mk.injEq] at hd
    case r11g11b10 => simp [← hd.2]
    case rgba8 => simp [← hd.2]
    case r8 => simp [← hd.2]
    all_goals simp [← hd.1, ← hd.2, fitBuffer_length]
  · exact fitBuffer_length

/-- Witness for C9 (amended) at the R16 layout on a 4-byte payload with
width = height = 1. -/
theorem claim_c9_witness :
    (fitBuffer (1 * 1 * 1) (unpackR16 [0, 0, 0, 0])).length =
      (if TCOLayout.r16 = .r11g11b10 ∨ TCOLayout.r16 = .rgba8 ∨ TCOLayout.r16 = .r8
       then ([0, 0, 0, 0] : List Nat).length else 1 * 1 * 1) :=
  claim_c9_buffer_length.1 bcNone 1 1 0 .r16 [0, 0, 0, 0] 1 _ rfl

/-- C9 (counterexample): a pipeline run that reaches the output stage
with an RGBA8 payload of 2 bytes but width = height = 1, channels = 4:
the buffer length is the decompressed size (2), not
`width * height * channels` (4). -/
theorem claim_c9_counterexample :
    processFile lz4Zeros bcNone fileRGBA8small =
      .ok { width := 1, height := 1, channels := 4, data := [0, 0], flipOnWrite := true }
    ∧ (2 : Nat) ≠ 1 * 1 * 4 := by
  exact ⟨rfl, by decide⟩

/-- C8: a file whose flag is not 4 is rejected with the unsupported-flag
error, independently of the decompressor and block decoder (nothing
downstream of the flag check runs), and the batch result of every other
file is unchanged by its presence. -/
theorem claim_c8_unsupported_flag :
    (∀ (lz4 : LZ4) (bc : BCDecoder) (data : List Nat),
      24 ≤ data.length → baseFlag data ≠ 4 →
      processFile lz4 bc data = .error .unsupportedFlag)
    ∧ (∀ (lz4 : LZ4) (bc : BCDecoder) (fs1 fs2 : List (List Nat)) (d : List Nat),
      processBatch lz4 bc (fs1 ++ d :: fs2) =
        processBatch lz4 bc fs1 ++ processFile lz4 bc d :: processBatch lz4 bc fs2) := by
  constructor
  · intro lz4 bc data hlen hflag
    rw [processFile, if_neg (by omega), if_neg (by omega),
      if_neg (by simp [readOK]; omega), if_pos hflag]
  · intro lz4 bc fs1 fs2 d
    simp [processBatch]

/-- Witness for C8: a 24-byte file with flag 5 is rejected with the
unsupported-flag error. -/
theorem claim_c8_witness :
    processFile lz4Zeros bcNone fileFlag5 = .error .unsupportedFlag :=
  claim_c8_unsupported_flag.1 lz4Zeros bcNone fileFlag5 (by decide) (by decide)

/-- C2: the `Read` helper succeeds only when strictly more bytes remain
than the structure size (an exact fit fails), and a file whose length is
the exact fit for any of the three header reads is rejected with a
truncated-header error. -/
theorem claim_c2_exact_fit :
    (∀ pos total size : Nat, pos ≤ total →
      (readOK pos total size = true ↔ size < total - pos))
    ∧ (∀ pos total : Nat, readOK pos total (total - pos) = false)
    ∧ (∀ (lz4 : LZ4) (bc : BCDecoder) (data : List Nat), data.length = 4 →
        processFile lz4 bc data = .error .incompleteFile
        ∧ Err.incompleteFile.isTruncation = true)
    ∧ (∀ (lz4 : LZ4) (bc : BCDecoder) (data : List Nat), data.length = 24 →
        baseFlag data = 4 →
        processFile lz4 bc data = .error .truncatedComp
        ∧ Err.truncatedComp.isTruncation = true)
    ∧ (∀ (lz4 : LZ4) (bc : BCDecoder) (data : List Nat), data.length = 48 →
        baseFlag data = 4 → dataHeaderSize data = 24 →
        processFile lz4 bc data = .error .truncatedTCO
        ∧ Err.truncatedTCO.isTruncation = true) := by
  refine ⟨?_, ?_, ?_, ?_, ?_⟩
  · intro pos total size hpt
    simp only [readOK, decide_eq_true_eq]
    omega
  · intro pos total
    simp only [readOK, decide_eq_false_iff_not]
    omega
  · intro lz4 bc data hlen
    refine ⟨?_, rfl⟩
    rw [processFile, if_neg (by omega), if_pos (by omega)]
  · intro lz4 bc data hlen hflag
    refine ⟨?_, rfl⟩
    rw [processFile, if_neg (by omega), if_neg (by omega),
      if_neg (by simp [readOK]; omega), if_neg (by omega),
      if_pos (by simp [readOK]; omega)]
  · intro lz4 bc data hlen hflag hdhs
    refine ⟨?_, rfl⟩
    rw [processFile, if_neg (by omega), if_neg (by omega),
      if_neg (by simp [readOK]; omega), if_neg (by omega),
      if_neg (by simp [readOK]; omega), if_neg (by omega),
      if_pos (by simp [readOK]; omega)]

/-- Witness for C2 on the three exact-fit files and one read check. -/
theorem claim_c2_witness :
    processFile lz4Zeros bcNone file4bytes = .error .incompleteFile
    ∧ processFile lz4Zeros bcNone file24flag4 = .error .truncatedComp
    ∧ processFile lz4Zeros bcNone file48tco = .error .truncatedTCO
    ∧ (readOK 0 10 4 = true ↔ 4 < 10 - 0) :=
  ⟨(claim_c2_exact_fit.2.2.1 lz4Zeros bcNone file4bytes (by decide)).1,
   (claim_c2_exact_fit.2.2.2.1 lz4Zeros bcNone file24flag4 (by decide) (by decide)).1,
   (claim_c2_exact_fit.2.2.2.2 lz4Zeros bcNone file48tco (by decide) (by decide) (by decide)).1,
   claim_c2_exact_fit.1 0 10 4 (by decide)⟩

theorem r24g8Green_eq (pix : Nat) : r24g8Green pix = 0 := by
  rw [r24g8Green, Nat.shiftLeft_eq]
  have h1 : pix * 2^24 % 4294967296 = (pix % 2^8) * 2^24 := by
    rw [show (4294967296:Nat) = 2^8 * 2^24 by norm_num]
    exact Nat.mul_mod_mul_right _ _ _
  rw [h1, show (255:Nat) = 2^8 - 1 by norm_num, Nat.and_pow_two_sub_one_eq_mod]
  rw [show (pix % 2^8) * 2^24 = ((pix % 2^8) * 2^16) * 2^8 by ring, Nat.mul_mod_left]

theorem r24g8Red_eq (pix : Nat) : r24g8Red pix = 256 * (pix / 256 % 16777216) := by
  have hmask : (4294967040:Nat) = (2^24 - 1) <<< 8 := by decide
  have hRHS : 256 * (pix / 256 % 16777216) = ((pix >>> 8) % 2^24) <<< 8 := by
    rw [Nat.shiftLeft_eq, Nat.shiftRight_eq_div_pow]
    norm_num [Nat.mul_comm]
  rw [r24g8Red, hmask, hRHS]
  apply Nat.eq_of_testBit_eq
  intro i
  simp only [Nat.testBit_land, Nat.testBit_shiftLeft, Nat.testBit_mod_two_pow,
    Nat.testBit_shiftRight, Nat.testBit_two_pow_sub_one]
  by_cases h8 : 8 ≤ i
  · have hadd : 8 + (i - 8) = i := by omega
    by_cases h24 : i - 8 < 24
    · simp [h8, hadd, h24, ge_iff_le]
    · simp [h8, hadd, h24, ge_iff_le]
  · simp [show ¬ (i ≥ 8) by omega]

/-- C1 (counterexample): for the 12-byte group whose first word is
0xAABBCCDD the R24G8 branch produces green byte 0, not 0xDD = 221: the
low byte of `pix << 24` is always 0. (The red byte is 170, the rescaled
0xAABBCC00, as claimed.) -/
theorem claim_c1_counterexample :
    unpackR24G8 [221, 204, 187, 170, 0, 0, 0, 0, 0, 0, 0, 0] = [170, 0]
    ∧ (0 : Nat) ≠ 221 := by
  refine ⟨by decide!, by decide⟩

/-- C1 (amended): the R24G8 branch consumes the payload in 12-byte
groups, reading one 32-bit little-endian word `w` per group; the red
output byte is `w & 0xFFFFFF00` divided by 0xFFFFFF00 and multiplied by
255 (truncated); the green output byte is `(w << 24) & 0xFF` evaluated
in 32-bit arithmetic, which is 0 for every word (the low 24 bits of the
shift are zero), not byte 0 of `w`; for 0xAABBCCDD the red mask is
0xAABBCC00. -/
theorem claim_c1_r24g8 :
    (∀ b0 b1 b2 b3 b4 b5 b6 b7 b8 b9 b10 b11 rest,
      unpackR24G8 (b0::b1::b2::b3::b4::b5::b6::b7::b8::b9::b10::b11::rest) =
        scaleR24 (r24g8Red (leU32 b0 b1 b2 b3)) :: r24g8Green (leU32 b0 b1 b2 b3) ::
          unpackR24G8 rest)
    ∧ (∀ pix : Nat, r24g8Green pix = 0)
    ∧ (∀ pix : Nat, scaleR24 (r24g8Red pix) = r24g8Red pix * 255 / 4294967040)
    ∧ r24g8Red 2864434397 = 2864434176 := by
  refine ⟨fun _ _ _ _ _ _ _ _ _ _ _ _ _ => rfl, r24g8Green_eq, ?_, by decide⟩
  intro pix
  rw [r24g8Red_eq]
  set m := pix / 256 % 16777216 with hm
  have hmle : m ≤ 16777215 := by
    have := Nat.mod_lt (pix / 256) (show 0 < 16777216 by norm_num)
    omega
  rw [scaleR24_eq m hmle]
  rw [show 256 * m * 255 = 256 * (m * 255) by ring,
    show (4294967040:Nat) = 256 * 16777215 by norm_num,
    Nat.mul_div_mul_left _ _ (by norm_num : 0 < 256),
    show m * 255 = 255 * m by ring,
    show (16777215:Nat) = 255 * 65793 by norm_num,
    Nat.mul_div_mul_left _ _ (by norm_num : 0 < 255)]

/-- C3: the R32 branch steps through the payload with the same 4-byte
stride as R16, reads only the first 16-bit word of each pair, divides by
`float(UINT_MAX)` and multiplies by 255; the output byte is 0 for every
possible 16-bit value, as is the exact value
`⌊v * 255 / 4294967295⌋`. -/
theorem claim_c3_r32 :
    (∀ b0 b1 b2 b3 rest, unpackR32 (b0 :: b1 :: b2 :: b3 :: rest) =
        scale32 (leU16 b0 b1) :: unpackR32 rest)
    ∧ (∀ payload, (unpackR32 payload).length = (unpackR16 payload).length)
    ∧ (∀ b0 b1, scale32 (leU16 b0 b1) = leU16 b0 b1 * 255 / 4294967295
        ∧ scale32 (leU16 b0 b1) = 0) := by
  refine ⟨fun _ _ _ _ _ => rfl, unpackR32_length, fun b0 b1 => ?_⟩
  have h := scale32_zero (leU16 b0 b1) (leU16_le b0 b1)
  have hdiv : leU16 b0 b1 * 255 / 4294967295 = 0 := by
    apply Nat.div_eq_of_lt
    have := leU16_le b0 b1
    omega
  exact ⟨by rw [h, hdiv], h⟩

/-- C4: the R16 branch consumes two 16-bit words (4 bytes) per output
pixel, uses only the first word of each pair (the other two bytes do not
appear in the result), and the output byte is
`⌊v / 65535 × 255⌋`. -/
theorem claim_c4_r16 :
    (∀ b0 b1 b2 b3 rest, unpackR16 (b0 :: b1 :: b2 :: b3 :: rest) =
        scale16 (leU16 b0 b1) :: unpackR16 rest)
    ∧ (∀ b0 b1, scale16 (leU16 b0 b1) = leU16 b0 b1 * 255 / 65535) := by
  exact ⟨fun _ _ _ _ _ => rfl, fun b0 b1 => scale16_eq _ (leU16_le b0 b1)⟩

/-- C5: the RG16 branch turns each pair of 16-bit little-endian values
into one two-channel pixel, each output byte `⌊v / 65535 × 255⌋`; in
particular 65535 maps to 255, 0 to 0 and 32768 to 127. -/
theorem claim_c5_rg16 :
    (∀ b0 b1 b2 b3 rest, unpackRG16 (b0 :: b1 :: b2 :: b3 :: rest) =
        scale16 (leU16 b0 b1) :: scale16 (leU16 b2 b3) :: unpackRG16 rest)
    ∧ (∀ b0 b1, scale16 (leU16 b0 b1) = leU16 b0 b1 * 255 / 65535)
    ∧ scale16 65535 = 255 ∧ scale16 0 = 0 ∧ scale16 32768 = 127 := by
  refine ⟨fun _ _ _ _ _ => rfl, fun b0 b1 => scale16_eq _ (leU16_le b0 b1), ?_, ?_, ?_⟩
  · rw [scale16_eq 65535 (by norm_num)]
  · rw [scale16_eq 0 (by norm_num)]
  · rw [scale16_eq 32768 (by norm_num)]

end CacheDumper
